import Mathlib

/-!
Verification of the quepy application engine (quepy/quepyapp.py): the
question-sanitization helper, the refo sub-pattern decomposition, the
structural deduplication of partial patterns, the rule registry built by
QuepyApp.__init__, and the matching pipeline (get_query / get_queries /
_iter_compiled_forms).

Modelling conventions:
* Python strings are Lean `String`s (lists of characters).
* The refo pattern algebra (an external library) is modelled by the
  inductive type `RefoPattern` following its known tree shape: atomic
  predicates, Any, quepy Particles (which carry an inner regex), Star,
  Question (optional), Concatenation (a list of children, as produced by
  the + operator) and Disjunction.  `repr` of a pattern is modelled by the
  structural rendering `patRepr`, `type(p)` by the constructor tag
  `typeTag`.
* External collaborators (tagger, encoding policy, code generator, the
  per-rule get_interpretation) are fields of the application record; a
  tagger raising TaggingError is modelled by returning `none`.
* Python's stable `list.sort(key=weight, reverse=True)` is modelled by
  Mathlib's stable `List.insertionSort` with the relation
  "left weight is at least right weight".
-/

/-- The three characters the sanitizer talks about, by code point
(39 = single quote, 34 = double quote, 92 = backslash). -/
def squote : Char := Char.ofNat 39

def dquote : Char := Char.ofNat 34

def bslash : Char := Char.ofNat 92

/-- Python's `str.replace(old, new)` for a one-character `old`:
every occurrence of `old` is replaced by the character list `new`. -/
def replaceChar (old : Char) (new : List Char) : List Char → List Char
  | [] => []
  | c :: cs => (if c = old then new else [c]) ++ replaceChar old new cs

/-- `question_sanitize` from quepyapp.py, lines 50-53.
The first source line is `question.replace("'", "\'")`: in Python the
string literal written backslash-quote denotes just a quote, so this
replaces a single quote by itself.  The second line replaces each double
quote by backslash-double-quote. -/
def question_sanitize (question : String) : String :=
  let q1 : String := String.mk (replaceChar squote [squote] question.data)
  String.mk (replaceChar dquote [bslash, dquote] q1.data)

/-- Helper for `unescapedOccurs`: scans a character list remembering the
previous character; reports an occurrence of `c` not preceded by a
backslash. -/
def hasUnescapedFrom (c : Char) (prev : Option Char) : List Char → Bool
  | [] => false
  | x :: xs =>
      (decide (x = c) && decide (prev ≠ some bslash)) ||
        hasUnescapedFrom c (some x) xs

/-- `c` occurs in `s` at a position not immediately preceded by a
backslash. -/
def unescapedOccurs (c : Char) (s : String) : Bool :=
  hasUnescapedFrom c none s.data

/-! ## The refo pattern algebra -/

/-- The tree shape of refo patterns as used by quepy: atomic predicate
leaves (Predicate, Pos, Lemma, ... rendered by the name of their
predicate function), Any, quepy Particles (which hold an inner regex that
`refo_subpatterns` refuses to open), Star, Question, Concatenation
(holding the list of concatenated patterns) and Disjunction. -/
inductive RefoPattern : Type where
  | predicate (name : String) : RefoPattern
  | anyTok : RefoPattern
  | particle (name : String) (inner : RefoPattern) : RefoPattern
  | star (inner : RefoPattern) : RefoPattern
  | question (inner : RefoPattern) : RefoPattern
  | concat (children : List RefoPattern) : RefoPattern
  | disjunction (a b : RefoPattern) : RefoPattern

/-- Python's `type(p)`: the concrete class of the pattern node. -/
def typeTag : RefoPattern → Nat
  | .predicate _ => 0
  | .anyTok => 1
  | .particle _ _ => 2
  | .star _ => 3
  | .question _ => 4
  | .concat _ => 5
  | .disjunction _ _ => 6

/-- Python's `repr(p)`: a deterministic textual rendering of the whole
sub-tree. -/
def patRepr : RefoPattern → String
  | .predicate n => "Predicate(" ++ n ++ ")"
  | .anyTok => "Any()"
  | .particle n r => "Particle(" ++ n ++ ", " ++ patRepr r ++ ")"
  | .star r => "Star(" ++ patRepr r ++ ")"
  | .question r => "Question(" ++ patRepr r ++ ")"
  | .concat l =>
      "Concatenation([" ++
        String.intercalate ", " (l.attach.map (fun c => patRepr c.1)) ++ "])"
  | .disjunction a b => "Disjunction(" ++ patRepr a ++ ", " ++ patRepr b ++ ")"
termination_by p => sizeOf p
decreasing_by
  all_goals simp
  all_goals first
    | omega
    | (have hls := List.sizeOf_lt_of_mem c.2; omega)

/-- `compare_patterns` from quepyapp.py, lines 78-81: same concrete type
and same repr of the full sub-tree. -/
def compare_patterns (pattern1 pattern2 : RefoPattern) : Bool :=
  if typeTag pattern1 ≠ typeTag pattern2 then false
  else patRepr pattern1 == patRepr pattern2

/-- `find_pattern` from quepyapp.py, lines 84-88: is some element of the
iterable f-equal to the pattern? -/
def find_pattern (pattern : RefoPattern) (iterable : List RefoPattern)
    (f : RefoPattern → RefoPattern → Bool) : Bool :=
  iterable.any (fun i => f pattern i)

/-- `remove_duplicates` from quepyapp.py, lines 91-93 (the source gives
`f` the default value `compare_patterns`; callers here pass it
explicitly): keep the elements whose prefix of the original list holds no
f-equal element. -/
def remove_duplicates (iterable : List RefoPattern)
    (f : RefoPattern → RefoPattern → Bool) : List RefoPattern :=
  (iterable.enum.filter
    (fun pi => !find_pattern pi.2 (iterable.take pi.1) f)).map (·.2)

/-- The single unwrapping step `if isinstance(at, Question): at = at.arg`
of quepyapp.py line 68-69. -/
def unwrapQuestion : RefoPattern → RefoPattern
  | .question p => p
  | p => p

/-- `refo_subpatterns` from quepyapp.py, lines 56-73.  A Particle returns
nothing; otherwise each pattern-valued attribute (for Concatenation, each
element of its child list) is taken, one Question wrapper is unwrapped,
the recursion result is accumulated and the child itself appended. -/
def refo_subpatterns : RefoPattern → List RefoPattern
  | .particle _ _ => []
  | .predicate _ => []
  | .anyTok => []
  | .star c =>
      refo_subpatterns (unwrapQuestion c) ++ [unwrapQuestion c]
  | .question c =>
      refo_subpatterns (unwrapQuestion c) ++ [unwrapQuestion c]
  | .disjunction a b =>
      (refo_subpatterns (unwrapQuestion a) ++ [unwrapQuestion a]) ++
        (refo_subpatterns (unwrapQuestion b) ++ [unwrapQuestion b])
  | .concat l =>
      (l.attach.map (fun c =>
        refo_subpatterns (unwrapQuestion c.1) ++ [unwrapQuestion c.1])).flatten
termination_by p => sizeOf p
decreasing_by
  · have h : sizeOf (unwrapQuestion c) ≤ sizeOf c := by
      cases c <;> simp [unwrapQuestion]
    simp at h ⊢; omega
  · have h : sizeOf (unwrapQuestion c) ≤ sizeOf c := by
      cases c <;> simp [unwrapQuestion]
    simp at h ⊢; omega
  · have h : sizeOf (unwrapQuestion a) ≤ sizeOf a := by
      cases a <;> simp [unwrapQuestion]
    simp at h ⊢; omega
  · have h : sizeOf (unwrapQuestion b) ≤ sizeOf b := by
      cases b <;> simp [unwrapQuestion]
    simp at h ⊢; omega
  · have h1 := List.sizeOf_lt_of_mem c.2
    have h2 : sizeOf (unwrapQuestion c.1) ≤ sizeOf c.1 := by
      cases c.1 <;> simp [unwrapQuestion]
    simp at h1 h2 ⊢; omega

/-! ## The application -/

/-- A tagged token (word plus tag data) as produced by the external
tagger. -/
abbrev Token := String × String

/-- One discovered rule instance (a QuestionTemplate subclass instance):
its compiled regex, its weight, and its get_interpretation method.  The
method returns the source's (expression, userdata) pair; a falsy
expression is modelled as `none`. -/
structure Rule (ε μ : Type) where
  regex : RefoPattern
  weight : Int
  getInterpretation : List Token → Option ε × μ

/-- The application state after __init__, together with its external
collaborators.  `fragment_rules` is `self.partial_rules` in the source;
a tagger returning `none` models a raised TaggingError; `encode` models
encoding_flexible_conversion and `get_code` models generation.get_code. -/
structure QuepyApp (ε μ : Type) where
  rules : List (Rule ε μ)
  fragment_rules : List RefoPattern
  tagger : String → Option (List Token)
  encode : String → String
  get_code : ε → String → String × String
  language : String

/-- The concatenation, in discovery order, of every rule's wrapped
subpattern list: the list `QuepyApp.get_partial_rules` (lines 136-143)
accumulates before its final deduplication.  Each subpattern is wrapped
as `Star(Any()) + pattern + Star(Any())` (line 141). -/
def raw_fragment_rules {ε μ : Type} (rules : List (Rule ε μ)) :
    List RefoPattern :=
  (rules.map (fun rule =>
    (refo_subpatterns rule.regex).map (fun pattern =>
      RefoPattern.concat [.star .anyTok, pattern, .star .anyTok]))).flatten

/-- `QuepyApp.get_partial_rules` (lines 136-143), producing the list the
source stores as `self.partial_rules`: the wrapped subpatterns of all
rules, deduplicated by `remove_duplicates` (whose default comparison is
`compare_patterns`). -/
def get_fragment_rules {ε μ : Type} (rules : List (Rule ε μ)) :
    List RefoPattern :=
  remove_duplicates (raw_fragment_rules rules) compare_patterns

/-- The sort relation of `self.rules.sort(key=lambda x: x.weight,
reverse=True)` (line 122): x may precede y when x's weight is at least
y's. -/
def ruleGE {ε μ : Type} (x y : Rule ε μ) : Prop := y.weight ≤ x.weight

instance {ε μ : Type} : DecidableRel (@ruleGE ε μ) := by
  intro x y; unfold ruleGE; infer_instance

instance {ε μ : Type} : IsTotal (Rule ε μ) (@ruleGE ε μ) :=
  ⟨fun a b => le_total b.weight a.weight⟩

instance {ε μ : Type} : IsTrans (Rule ε μ) (@ruleGE ε μ) :=
  ⟨fun _ _ _ h1 h2 => le_trans h2 h1⟩

/-- Everything QuepyApp.__init__ consumes: the rule instances discovered
from the parsing module (in discovery order, before sorting), the
external collaborators, and the settings module's LANGUAGE value
(`none` when the attribute is missing). -/
structure QuepyAppInput (ε μ : Type) where
  discovered : List (Rule ε μ)
  tagger : String → Option (List Token)
  encode : String → String
  get_code : ε → String → String × String
  language : Option String

/-- QuepyApp.__init__ (lines 101-122): raise ValueError when LANGUAGE is
falsy (missing, or present but empty — Python's `if not self.language`),
otherwise build the partial-pattern index from the rules in discovery
order and stably sort the rules by weight, descending.  Python's stable
list.sort is modelled by the stable `List.insertionSort`. -/
def buildApp {ε μ : Type} (inp : QuepyAppInput ε μ) :
    Except String (QuepyApp ε μ) :=
  match inp.language with
  | none => .error "Missing configuration for language"
  | some lang =>
      if lang = "" then .error "Missing configuration for language"
      else .ok
        { rules := List.insertionSort (@ruleGE ε μ) inp.discovered
          fragment_rules := get_fragment_rules inp.discovered
          tagger := inp.tagger
          encode := inp.encode
          get_code := inp.get_code
          language := lang }

/-- QuepyApp._iter_compiled_forms (lines 184-202): tag the question — a
TaggingError is absorbed and yields nothing — then yield
(expression, userdata) for every rule whose interpretation is truthy, in
stored rule order.  The Python generator is modelled by the finite list
of the elements it yields. -/
def QuepyApp.iter_compiled_forms {ε μ : Type} (app : QuepyApp ε μ)
    (question : String) : List (ε × μ) :=
  match app.tagger question with
  | none => []
  | some words =>
      app.rules.filterMap (fun rule =>
        match rule.getInterpretation words with
        | (some expression, userdata) => some (expression, userdata)
        | (none, _) => none)

/-- QuepyApp.get_queries (lines 163-182): encode the question, tag and
match it, and run every interpretation through generation.get_code. -/
def QuepyApp.get_queries {ε μ : Type} (app : QuepyApp ε μ)
    (question : String) : List (String × String × μ) :=
  (app.iter_compiled_forms (app.encode question)).map (fun p =>
    ((app.get_code p.1 app.language).1, (app.get_code p.1 app.language).2,
      p.2))

/-- QuepyApp.get_query (lines 145-161): sanitize the question, then
return the first element produced by get_queries, or
(None, None, None) when it produces nothing. -/
def QuepyApp.get_query {ε μ : Type} (app : QuepyApp ε μ)
    (question : String) : Option String × Option String × Option μ :=
  match app.get_queries (question_sanitize question) with
  | [] => (none, none, none)
  | (target, query, userdata) :: _ =>
      (some target, some query, some userdata)

/-- The rule's get_interpretation produced a truthy expression on these
tagged words: the rule's full pattern matched. -/
def ruleMatches {ε μ : Type} (rule : Rule ε μ) (words : List Token) :
    Bool :=
  (rule.getInterpretation words).1.isSome

/-! ## Auxiliary definitions used to state and prove the claims -/

/-- The pattern-valued structural children of a node: the attributes the
loop of `refo_subpatterns` (lines 62-72) iterates over.  A Particle is
returned from early (line 59-61), so it exposes none. -/
def patternChildren : RefoPattern → List RefoPattern
  | .predicate _ => []
  | .anyTok => []
  | .particle _ _ => []
  | .star c => [c]
  | .question c => [c]
  | .concat l => l
  | .disjunction a b => [a, b]

/-- Number of nodes of a pattern tree, counting a Particle as a single
leaf (its interior is opaque to the decomposer). -/
def nodeCount : RefoPattern → Nat
  | .predicate _ => 1
  | .anyTok => 1
  | .particle _ _ => 1
  | .star c => 1 + nodeCount c
  | .question c => 1 + nodeCount c
  | .concat l => 1 + (l.attach.map (fun c => nodeCount c.1)).sum
  | .disjunction a b => 1 + nodeCount a + nodeCount b
termination_by p => sizeOf p
decreasing_by
  all_goals simp
  all_goals first
    | omega
    | (have hls := List.sizeOf_lt_of_mem c.2; omega)

/-- No Question (optionality) node occurs in the tree, Particle
interiors excepted. -/
def questionFree : RefoPattern → Bool
  | .predicate _ => true
  | .anyTok => true
  | .particle _ _ => true
  | .star c => questionFree c
  | .question _ => false
  | .concat l => l.attach.all (fun c => questionFree c.1)
  | .disjunction a b => questionFree a && questionFree b
termination_by p => sizeOf p
decreasing_by
  all_goals simp
  all_goals first
    | omega
    | (have hls := List.sizeOf_lt_of_mem c.2; omega)

/-- Is the node composite (non-leaf) in the sense of the spec's Pattern
Tree data model? -/
def isCompositeNode : RefoPattern → Bool
  | .star _ => true
  | .question _ => true
  | .concat _ => true
  | .disjunction _ _ => true
  | .predicate _ => false
  | .anyTok => false
  | .particle _ _ => false

/-- Number of composite (non-leaf) nodes in the whole tree. -/
def compositeCount : RefoPattern → Nat
  | .predicate _ => 0
  | .anyTok => 0
  | .particle _ inner => compositeCount inner
  | .star c => 1 + compositeCount c
  | .question c => 1 + compositeCount c
  | .concat l => 1 + (l.attach.map (fun c => compositeCount c.1)).sum
  | .disjunction a b => 1 + compositeCount a + compositeCount b
termination_by p => sizeOf p
decreasing_by
  all_goals simp
  all_goals first
    | omega
    | (have hls := List.sizeOf_lt_of_mem c.2; omega)

/-- Recursive reformulation of `remove_duplicates`: walk the list keeping
an element exactly when nothing f-equal to it was seen before. -/
def rdAux (f : RefoPattern → RefoPattern → Bool) (seen : List RefoPattern) :
    List RefoPattern → List RefoPattern
  | [] => []
  | x :: xs =>
      if find_pattern x seen f then rdAux f (seen ++ [x]) xs
      else x :: rdAux f (seen ++ [x]) xs

/-- Modelled from the spec: §4.5 step 1 says the contract of
`get_queries(question)` begins by sanitizing the input text before
normalizing the encoding and invoking the tagger.  The repository's
get_queries has no such step (sanitization sits in get_query, line 158),
so the spec's sanitize-first pipeline is defined here separately for
comparison. -/
def get_queries_sanitizing {ε μ : Type} (app : QuepyApp ε μ)
    (question : String) : List (String × String × μ) :=
  app.get_queries (question_sanitize question)

/-! ## Concrete fixtures used by witnesses and counterexamples -/

/-- A tagged token. -/
def witTok : Token := ("obama", "NNP")

/-- A rule of weight 5 whose pattern matches every tagged sequence. -/
def rLow : Rule String String :=
  { regex := .star .anyTok
    weight := 5
    getInterpretation := fun _ => (some "lowExpr", "lowData") }

/-- A rule of weight 10 whose pattern matches every tagged sequence. -/
def rHigh : Rule String String :=
  { regex := .star .anyTok
    weight := 10
    getInterpretation := fun _ => (some "highExpr", "highData") }

/-- Collaborators for a two-rule application: the low-weight rule is
discovered first. -/
def witInput : QuepyAppInput String String :=
  { discovered := [rLow, rHigh]
    tagger := fun _ => some [witTok]
    encode := id
    get_code := fun e lang => (e ++ "-target", lang)
    language := some "en" }

/-- The application __init__ builds from `witInput`. -/
def witApp : QuepyApp String String :=
  { rules := List.insertionSort (@ruleGE String String) witInput.discovered
    fragment_rules := get_fragment_rules witInput.discovered
    tagger := witInput.tagger
    encode := witInput.encode
    get_code := witInput.get_code
    language := "en" }

/-- A rule whose get_interpretation never produces an expression. -/
def noneRule : Rule String String :=
  { regex := .anyTok
    weight := 1
    getInterpretation := fun _ => (none, "meta") }

/-- An application whose only rule never produces an expression. -/
def noMatchApp : QuepyApp String String :=
  { rules := [noneRule]
    fragment_rules := []
    tagger := fun _ => some [witTok]
    encode := id
    get_code := fun e lang => (e, lang)
    language := "en" }

/-- An application whose tagger raises TaggingError on every input. -/
def failTagApp : QuepyApp String String :=
  { rules := [rHigh]
    fragment_rules := []
    tagger := fun _ => none
    encode := id
    get_code := fun e lang => (e, lang)
    language := "en" }

/-- An application whose tagger accepts exactly the one-character
question consisting of a double quote. -/
def quoteTagApp : QuepyApp String String :=
  { rules := [rHigh]
    fragment_rules := []
    tagger := fun s => if s = String.mk [dquote] then some [witTok] else none
    encode := id
    get_code := fun e lang => (e, lang)
    language := "en" }

/-- Collaborators whose settings module has no LANGUAGE attribute. -/
def noLangInput : QuepyAppInput Unit Unit :=
  { discovered := []
    tagger := fun _ => none
    encode := id
    get_code := fun _ _ => ("", "")
    language := none }

/-- A tree whose two nodes below the root are both atomic leaves. -/
def pLeaves : RefoPattern := .concat [.predicate "person", .predicate "verb"]

/-- A question-free tree with one composite and two leaves below the
root. -/
def pNested : RefoPattern :=
  .concat [.predicate "person", .star (.predicate "verb")]

/-- The wrapped fragment both `rLow` and `rHigh` contribute. -/
def wFrag : RefoPattern := .concat [.star .anyTok, .anyTok, .star .anyTok]

/-! ## Evaluation lemmas for the pattern functions -/

@[simp] theorem refo_subpatterns_particle (n : String) (r : RefoPattern) :
    refo_subpatterns (.particle n r) = [] := by
  simp [refo_subpatterns]

@[simp] theorem refo_subpatterns_predicate (n : String) :
    refo_subpatterns (.predicate n) = [] := by
  simp [refo_subpatterns]

@[simp] theorem refo_subpatterns_anyTok :
    refo_subpatterns .anyTok = [] := by
  simp [refo_subpatterns]

@[simp] theorem refo_subpatterns_star (c : RefoPattern) :
    refo_subpatterns (.star c) =
      refo_subpatterns (unwrapQuestion c) ++ [unwrapQuestion c] := by
  rw [refo_subpatterns]

@[simp] theorem refo_subpatterns_question (c : RefoPattern) :
    refo_subpatterns (.question c) =
      refo_subpatterns (unwrapQuestion c) ++ [unwrapQuestion c] := by
  rw [refo_subpatterns]

@[simp] theorem refo_subpatterns_disjunction (a b : RefoPattern) :
    refo_subpatterns (.disjunction a b) =
      (refo_subpatterns (unwrapQuestion a) ++ [unwrapQuestion a]) ++
        (refo_subpatterns (unwrapQuestion b) ++ [unwrapQuestion b]) := by
  rw [refo_subpatterns]

@[simp] theorem refo_subpatterns_concat (l : List RefoPattern) :
    refo_subpatterns (.concat l) =
      l.flatMap (fun c =>
        refo_subpatterns (unwrapQuestion c) ++ [unwrapQuestion c]) := by
  rw [refo_subpatterns]
  rw [List.attach_map_coe l
    (fun c => refo_subpatterns (unwrapQuestion c) ++ [unwrapQuestion c])]
  rw [List.flatMap_def]

@[simp] theorem patRepr_concat (l : List RefoPattern) :
    patRepr (.concat l) =
      "Concatenation([" ++ String.intercalate ", " (l.map patRepr) ++
        "])" := by
  rw [patRepr, List.attach_map_coe l patRepr]

@[simp] theorem nodeCount_concat (l : List RefoPattern) :
    nodeCount (.concat l) = 1 + (l.map nodeCount).sum := by
  rw [nodeCount, List.attach_map_coe l nodeCount]

@[simp] theorem questionFree_concat (l : List RefoPattern) :
    questionFree (.concat l) = l.all questionFree := by
  rw [questionFree]
  apply Bool.eq_iff_iff.mpr
  simp only [List.all_eq_true]
  constructor
  · intro h x hx
    exact h ⟨x, hx⟩ (List.mem_attach l ⟨x, hx⟩)
  · intro h c _
    exact h c.1 c.2

@[simp] theorem compositeCount_concat (l : List RefoPattern) :
    compositeCount (.concat l) = 1 + (l.map compositeCount).sum := by
  rw [compositeCount, List.attach_map_coe l compositeCount]

/-! ## Sanitization lemmas -/

theorem replaceChar_self (c : Char) :
    ∀ l : List Char, replaceChar c [c] l = l := by
  intro l
  induction l with
  | nil => rfl
  | cons x xs ih => by_cases h : x = c <;> simp [replaceChar, h, ih]

theorem question_sanitize_eq (q : String) :
    question_sanitize q =
      String.mk (replaceChar dquote [bslash, dquote] q.data) := by
  simp [question_sanitize, replaceChar_self]

theorem replaceChar_of_not_mem (c : Char) (new : List Char) :
    ∀ l : List Char, c ∉ l → replaceChar c new l = l := by
  intro l
  induction l with
  | nil => intro _; rfl
  | cons x xs ih =>
      intro h
      have hx : x ≠ c := fun he => h (he ▸ List.mem_cons_self x xs)
      simp [replaceChar, hx, ih (fun hm => h (List.mem_cons_of_mem x hm))]

theorem hasUnescapedFrom_replace_dquote :
    ∀ (l : List Char) (prev : Option Char),
      hasUnescapedFrom dquote prev
        (replaceChar dquote [bslash, dquote] l) = false := by
  have hbd : (bslash = dquote) = False := by
    simp only [eq_iff_iff, iff_false]
    decide
  have hsb : (some bslash ≠ some bslash) = False := by simp
  intro l
  induction l with
  | nil => intro _; rfl
  | cons x xs ih =>
      intro prev
      by_cases h : x = dquote
      · subst h
        simp only [replaceChar, if_pos rfl, List.cons_append,
          List.append_eq, List.nil_append, hasUnescapedFrom]
        rw [ih (some dquote)]
        simp [hbd]
      · simp only [replaceChar, if_neg h, List.cons_append,
          List.nil_append, hasUnescapedFrom, ih, Bool.or_false]
        simp [h]

/-! ## Stable sorting and first matches -/

theorem find?_orderedInsert_max {ε μ : Type} (p : Rule ε μ → Bool)
    (a : Rule ε μ) (ha : p a = true) :
    ∀ s : List (Rule ε μ),
      (∀ b ∈ s, p b = true → b.weight ≤ a.weight) →
      (List.orderedInsert ruleGE a s).find? p = some a := by
  intro s
  induction s with
  | nil =>
      intro _
      simp [List.orderedInsert, List.find?, ha]
  | cons b s' ih =>
      intro hmax
      by_cases hab : ruleGE a b
      · simp only [List.orderedInsert, if_pos hab]
        exact List.find?_cons_of_pos _ ha
      · simp only [List.orderedInsert, if_neg hab]
        have hpb : p b = false := by
          cases hpb : p b
          · rfl
          · exact absurd (hmax b (List.mem_cons_self b s') hpb) hab
        rw [List.find?_cons_of_neg _ (by simp [hpb])]
        exact ih (fun c hc hpc => hmax c (List.mem_cons_of_mem b hc) hpc)

theorem find?_orderedInsert_of_neg {ε μ : Type} (p : Rule ε μ → Bool)
    (a : Rule ε μ) (ha : p a = false) :
    ∀ s : List (Rule ε μ),
      (List.orderedInsert ruleGE a s).find? p = s.find? p := by
  intro s
  induction s with
  | nil => simp [List.orderedInsert, List.find?, ha]
  | cons b s' ih =>
      by_cases hab : ruleGE a b
      · simp only [List.orderedInsert, if_pos hab]
        rw [List.find?_cons_of_neg _ (by simp [ha])]
      · simp only [List.orderedInsert, if_neg hab]
        cases hpb : p b
        · rw [List.find?_cons_of_neg _ (by simp [hpb]),
            List.find?_cons_of_neg _ (by simp [hpb])]
          exact ih
        · rw [List.find?_cons_of_pos _ hpb, List.find?_cons_of_pos _ hpb]

theorem find?_orderedInsert_sorted {ε μ : Type} (p : Rule ε μ → Bool)
    (a : Rule ε μ) :
    ∀ s : List (Rule ε μ), List.Sorted ruleGE s →
      ∀ x, s.find? p = some x → a.weight < x.weight →
      (List.orderedInsert ruleGE a s).find? p = some x := by
  intro s
  induction s with
  | nil =>
      intro _ x hx
      simp [List.find?] at hx
  | cons b s' ih =>
      intro hsort x hfind hlt
      by_cases hab : ruleGE a b
      · exfalso
        cases hpb : p b
        · have hfind' : s'.find? p = some x := by
            rwa [List.find?_cons_of_neg _ (by simp [hpb])] at hfind
          have hx : x ∈ s' := List.mem_of_find?_eq_some hfind'
          have hgw : ruleGE b x := (List.sorted_cons.mp hsort).1 x hx
          unfold ruleGE at hab hgw
          omega
        · have hx : x = b := by
            rw [List.find?_cons_of_pos _ hpb] at hfind
            exact (Option.some.inj hfind).symm
          subst hx
          unfold ruleGE at hab
          omega
      · simp only [List.orderedInsert, if_neg hab]
        cases hpb : p b
        · have hfind' : s'.find? p = some x := by
            rwa [List.find?_cons_of_neg _ (by simp [hpb])] at hfind
          rw [List.find?_cons_of_neg _ (by simp [hpb])]
          exact ih (List.sorted_cons.mp hsort).2 x hfind' hlt
        · rw [List.find?_cons_of_pos _ hpb] at hfind ⊢
          exact hfind

theorem find?_insertionSort_argmax {ε μ : Type} (p : Rule ε μ → Bool) :
    ∀ (l1 : List (Rule ε μ)) (r : Rule ε μ) (l2 : List (Rule ε μ)),
      p r = true →
      (∀ s ∈ l1 ++ r :: l2, p s = true → s.weight ≤ r.weight) →
      (∀ s ∈ l1, p s = true → s.weight < r.weight) →
      (List.insertionSort ruleGE (l1 ++ r :: l2)).find? p = some r := by
  intro l1
  induction l1 with
  | nil =>
      intro r l2 hp hmax _
      simp only [List.nil_append, List.insertionSort]
      apply find?_orderedInsert_max p r hp
      intro b hb hpb
      have hb' : b ∈ l2 := (List.mem_insertionSort ruleGE).mp hb
      exact hmax b (by simp [hb']) hpb
  | cons a l1' ih =>
      intro r l2 hp hmax hfirst
      simp only [List.cons_append, List.insertionSort]
      cases hpa : p a
      · rw [find?_orderedInsert_of_neg p a hpa]
        exact ih r l2 hp
          (fun s hs hps => hmax s (List.mem_cons_of_mem a hs) hps)
          (fun s hs hps => hfirst s (List.mem_cons_of_mem a hs) hps)
      · exact find?_orderedInsert_sorted p a _
          (List.sorted_insertionSort ruleGE _) r
          (ih r l2 hp
            (fun s hs hps => hmax s (List.mem_cons_of_mem a hs) hps)
            (fun s hs hps => hfirst s (List.mem_cons_of_mem a hs) hps))
          (hfirst a (List.mem_cons_self a l1') hpa)

theorem head?_filterMap {α β : Type} (f : α → Option β) :
    ∀ l : List α,
      (l.filterMap f).head? = (l.find? (fun a => (f a).isSome)).bind f := by
  intro l
  induction l with
  | nil => rfl
  | cons a l' ih =>
      cases hfa : f a
      · rw [List.filterMap_cons_none hfa,
          List.find?_cons_of_neg _ (by simp [hfa]), ih]
      · rw [List.filterMap_cons_some hfa,
          List.find?_cons_of_pos _ (by simp [hfa])]
        simp [hfa]

theorem buildApp_ok_fields {ε μ : Type} (inp : QuepyAppInput ε μ)
    (app : QuepyApp ε μ) (h : buildApp inp = Except.ok app) :
    app.rules = List.insertionSort (@ruleGE ε μ) inp.discovered ∧
    app.fragment_rules = get_fragment_rules inp.discovered ∧
    app.tagger = inp.tagger ∧ app.encode = inp.encode ∧
    app.get_code = inp.get_code := by
  unfold buildApp at h
  split at h
  · exact absurd h (by simp)
  · split at h
    · exact absurd h (by simp)
    · injection h with h'
      subst h'
      exact ⟨rfl, rfl, rfl, rfl, rfl⟩

/-! ## The comparison is an equivalence -/

theorem compare_patterns_iff (p q : RefoPattern) :
    compare_patterns p q = true ↔
      typeTag p = typeTag q ∧ patRepr p = patRepr q := by
  by_cases h : typeTag p = typeTag q <;> simp [compare_patterns, h]

theorem compare_patterns_refl (p : RefoPattern) :
    compare_patterns p p = true := by
  simp [compare_patterns_iff]

theorem compare_patterns_comm (p q : RefoPattern) :
    compare_patterns p q = compare_patterns q p := by
  by_cases h1 : compare_patterns p q = true
  · have hpq := (compare_patterns_iff p q).mp h1
    have h2 : compare_patterns q p = true :=
      (compare_patterns_iff q p).mpr ⟨hpq.1.symm, hpq.2.symm⟩
    rw [h1, h2]
  · by_cases h2 : compare_patterns q p = true
    · have hqp := (compare_patterns_iff q p).mp h2
      exact absurd
        ((compare_patterns_iff p q).mpr ⟨hqp.1.symm, hqp.2.symm⟩) h1
    · rw [Bool.not_eq_true] at h1 h2
      rw [h1, h2]

theorem compare_patterns_trans {p q r : RefoPattern}
    (h1 : compare_patterns p q = true) (h2 : compare_patterns q r = true) :
    compare_patterns p r = true := by
  rw [compare_patterns_iff] at h1 h2 ⊢
  exact ⟨h1.1.trans h2.1, h1.2.trans h2.2⟩

/-! ## remove_duplicates and its recursive reformulation -/

theorem find_pattern_eq_false_iff (x : RefoPattern) (l : List RefoPattern)
    (f : RefoPattern → RefoPattern → Bool) :
    find_pattern x l f = false ↔ ∀ e ∈ l, f x e = false := by
  unfold find_pattern
  rw [← Bool.not_eq_true, List.any_eq_true]
  simp

theorem remove_duplicates_append_one (l : List RefoPattern)
    (x : RefoPattern) (f : RefoPattern → RefoPattern → Bool) :
    remove_duplicates (l ++ [x]) f =
      remove_duplicates l f ++
        (if find_pattern x l f then [] else [x]) := by
  unfold remove_duplicates
  rw [List.enum_append]
  have he : List.enumFrom l.length [x] = [(l.length, x)] := rfl
  rw [he, List.filter_append, List.map_append]
  congr 1
  · apply congrArg
    apply List.filter_congr
    intro pi hpi
    have hm := List.mem_enum_iff_getElem?.mp hpi
    have hlt : pi.1 < l.length := (List.getElem?_eq_some.mp hm).1
    rw [List.take_append_of_le_length (le_of_lt hlt)]
  · have ht : List.take l.length (l ++ [x]) = l := List.take_left l [x]
    cases h : find_pattern x l f <;>
      simp [List.filter_cons, ht, h]

theorem rdAux_append_one (f : RefoPattern → RefoPattern → Bool) :
    ∀ (l seen : List RefoPattern) (x : RefoPattern),
      rdAux f seen (l ++ [x]) =
        rdAux f seen l ++
          (if find_pattern x (seen ++ l) f then [] else [x]) := by
  intro l
  induction l with
  | nil =>
      intro seen x
      cases h : find_pattern x seen f <;> simp [rdAux, h]
  | cons y ys ih =>
      intro seen x
      have hassoc : (seen ++ [y]) ++ ys = seen ++ y :: ys := by simp
      rw [List.cons_append]
      cases h : find_pattern y seen f
      · simp only [rdAux, h, Bool.false_eq_true, if_false]
        rw [ih (seen ++ [y]) x, hassoc]
        simp
      · simp only [rdAux, h, if_true]
        rw [ih (seen ++ [y]) x, hassoc]

theorem remove_duplicates_eq_rdAux (l : List RefoPattern)
    (f : RefoPattern → RefoPattern → Bool) :
    remove_duplicates l f = rdAux f [] l := by
  induction l using List.reverseRecOn with
  | nil => rfl
  | append_singleton l x ih =>
      rw [remove_duplicates_append_one, rdAux_append_one, ih]
      simp

theorem rdAux_mem_seen (f : RefoPattern → RefoPattern → Bool) :
    ∀ (l seen : List RefoPattern) (y : RefoPattern),
      y ∈ rdAux f seen l → ∀ s ∈ seen, f y s = false := by
  intro l
  induction l with
  | nil =>
      intro seen y hy
      simp [rdAux] at hy
  | cons x xs ih =>
      intro seen y hy s hs
      cases h : find_pattern x seen f
      · simp only [rdAux, h, Bool.false_eq_true, if_false] at hy
        rcases List.mem_cons.mp hy with rfl | hmem
        · exact (find_pattern_eq_false_iff y seen f).mp h s hs
        · exact ih (seen ++ [x]) y hmem s (by simp [hs])
      · simp only [rdAux, h, if_true] at hy
        exact ih (seen ++ [x]) y hy s (by simp [hs])

theorem rdAux_pairwise (f : RefoPattern → RefoPattern → Bool) :
    ∀ (l seen : List RefoPattern),
      (rdAux f seen l).Pairwise (fun a b => f b a = false) := by
  intro l
  induction l with
  | nil => intro seen; simp [rdAux]
  | cons x xs ih =>
      intro seen
      cases h : find_pattern x seen f
      · simp only [rdAux, h, Bool.false_eq_true, if_false]
        refine List.Pairwise.cons ?_ (ih (seen ++ [x]))
        intro y hy
        exact rdAux_mem_seen f xs (seen ++ [x]) y hy x (by simp)
      · simp only [rdAux, h, if_true]
        exact ih (seen ++ [x])

theorem rdAux_sublist (f : RefoPattern → RefoPattern → Bool) :
    ∀ (l seen : List RefoPattern), List.Sublist (rdAux f seen l) l := by
  intro l
  induction l with
  | nil => intro seen; simp [rdAux]
  | cons x xs ih =>
      intro seen
      cases h : find_pattern x seen f
      · simp only [rdAux, h, Bool.false_eq_true, if_false]
        exact List.Sublist.cons₂ x (ih (seen ++ [x]))
      · simp only [rdAux, h, if_true]
        exact List.Sublist.cons x (ih (seen ++ [x]))

theorem rdAux_first_occ (f : RefoPattern → RefoPattern → Bool) :
    ∀ (l seen : List RefoPattern) (y : RefoPattern),
      y ∈ rdAux f seen l →
        ∃ l1 l2, l = l1 ++ y :: l2 ∧ (∀ e ∈ l1, f y e = false) ∧
          (∀ s ∈ seen, f y s = false) := by
  intro l
  induction l with
  | nil =>
      intro seen y hy
      simp [rdAux] at hy
  | cons x xs ih =>
      intro seen y hy
      cases h : find_pattern x seen f
      · simp only [rdAux, h, Bool.false_eq_true, if_false] at hy
        rcases List.mem_cons.mp hy with rfl | hmem
        · exact ⟨[], xs, rfl, by simp,
            (find_pattern_eq_false_iff y seen f).mp h⟩
        · rcases ih (seen ++ [x]) y hmem with ⟨l1, l2, heq, hl1, hseen⟩
          exact ⟨x :: l1, l2, by rw [heq]; rfl,
            by
              intro e he
              rcases List.mem_cons.mp he with rfl | he'
              · exact hseen e (by simp)
              · exact hl1 e he',
            fun s hs => hseen s (by simp [hs])⟩
      · simp only [rdAux, h, if_true] at hy
        rcases ih (seen ++ [x]) y hy with ⟨l1, l2, heq, hl1, hseen⟩
        exact ⟨x :: l1, l2, by rw [heq]; rfl,
          by
            intro e he
            rcases List.mem_cons.mp he with rfl | he'
            · exact hseen e (by simp)
            · exact hl1 e he',
          fun s hs => hseen s (by simp [hs])⟩

theorem rdAux_of_pairwise (f : RefoPattern → RefoPattern → Bool) :
    ∀ (m seen : List RefoPattern),
      m.Pairwise (fun a b => f b a = false) →
      (∀ y ∈ m, ∀ s ∈ seen, f y s = false) →
      rdAux f seen m = m := by
  intro m
  induction m with
  | nil => intro seen _ _; rfl
  | cons x xs ih =>
      intro seen hp hseen
      have hfind : find_pattern x seen f = false :=
        (find_pattern_eq_false_iff x seen f).mpr
          (hseen x (List.mem_cons_self x xs))
      simp only [rdAux, hfind, Bool.false_eq_true, if_false]
      rw [ih (seen ++ [x]) (List.Pairwise.of_cons hp)]
      intro y hy s hs
      rcases List.mem_append.mp hs with hs' | hs'
      · exact hseen y (List.mem_cons_of_mem x hy) s hs'
      · rw [List.mem_singleton.mp hs']
        exact (List.pairwise_cons.mp hp).1 y hy

theorem rdAux_countP_zero :
    ∀ (l seen : List RefoPattern) (x : RefoPattern),
      (∃ s ∈ seen, compare_patterns x s = true) →
      (rdAux compare_patterns seen l).countP
        (fun y => compare_patterns x y) = 0 := by
  intro l
  induction l with
  | nil => intro seen x _; simp [rdAux]
  | cons z zs ih =>
      intro seen x hx
      rcases hx with ⟨s, hs, hxs⟩
      cases h : find_pattern z seen compare_patterns
      · have hz : compare_patterns x z = false := by
          cases hc : compare_patterns x z
          · rfl
          · exfalso
            have h1 : compare_patterns z s = true :=
              compare_patterns_trans
                ((compare_patterns_comm x z) ▸ hc) hxs
            have := (find_pattern_eq_false_iff z seen compare_patterns).mp
              h s hs
            rw [this] at h1
            exact Bool.false_ne_true h1
        simp only [rdAux, h, Bool.false_eq_true, if_false]
        rw [List.countP_cons]
        rw [ih (seen ++ [z]) x ⟨s, by simp [hs], hxs⟩]
        simp [hz]
      · simp only [rdAux, h, if_true]
        exact ih (seen ++ [z]) x ⟨s, by simp [hs], hxs⟩

theorem rdAux_countP_one :
    ∀ (l seen : List RefoPattern) (x : RefoPattern),
      (∃ y ∈ l, compare_patterns x y = true) →
      (∀ s ∈ seen, compare_patterns x s = false) →
      (rdAux compare_patterns seen l).countP
        (fun y => compare_patterns x y) = 1 := by
  intro l
  induction l with
  | nil =>
      intro seen x hx _
      rcases hx with ⟨y, hy, _⟩
      exact absurd hy (List.not_mem_nil y)
  | cons z zs ih =>
      intro seen x hx hseen
      cases hxz : compare_patterns x z
      · -- the representative is further down the list
        have hx' : ∃ y ∈ zs, compare_patterns x y = true := by
          rcases hx with ⟨y, hy, hxy⟩
          rcases List.mem_cons.mp hy with rfl | hy'
          · rw [hxy] at hxz; exact absurd hxz (by simp)
          · exact ⟨y, hy', hxy⟩
        cases h : find_pattern z seen compare_patterns
        · simp only [rdAux, h, Bool.false_eq_true, if_false]
          rw [List.countP_cons]
          rw [ih (seen ++ [z]) x hx' ?side]
          · simp [hxz]
          case side =>
            intro s hs
            rcases List.mem_append.mp hs with hs' | hs'
            · exact hseen s hs'
            · rw [List.mem_singleton.mp hs']
              exact hxz
        · simp only [rdAux, h, if_true]
          refine ih (seen ++ [z]) x hx' ?_
          intro s hs
          rcases List.mem_append.mp hs with hs' | hs'
          · exact hseen s hs'
          · rw [List.mem_singleton.mp hs']
            exact hxz
      · -- the head is a representative of x's class
        have h : find_pattern z seen compare_patterns = false := by
          cases hf : find_pattern z seen compare_patterns
          · rfl
          · exfalso
            unfold find_pattern at hf
            rcases List.any_eq_true.mp hf with ⟨s, hs, hzs⟩
            have : compare_patterns x s = true :=
              compare_patterns_trans hxz hzs
            rw [hseen s hs] at this
            exact Bool.false_ne_true this
        simp only [rdAux, h, Bool.false_eq_true, if_false]
        rw [List.countP_cons]
        rw [rdAux_countP_zero zs (seen ++ [z]) x ⟨z, by simp, hxz⟩]
        simp [hxz]

/-! ## Claims -/

/-- C9: building a QuepyApp fails with the fatal configuration error
"Missing configuration for language" when the settings module does not
declare a LANGUAGE value; no application object (Registry) is produced
in that case. -/
theorem claim_c9_missing_language {ε μ : Type} (inp : QuepyAppInput ε μ)
    (h : inp.language = none) :
    buildApp inp = Except.error "Missing configuration for language" ∧
    ∀ app : QuepyApp ε μ, buildApp inp ≠ Except.ok app := by
  have herr : buildApp inp =
      Except.error "Missing configuration for language" := by
    unfold buildApp
    rw [h]
  refine ⟨herr, fun app hk => ?_⟩
  rw [herr] at hk
  exact Except.noConfusion hk

/-- Witness for C9 at a concrete settings input with no LANGUAGE. -/
theorem claim_c9_missing_language_witness :
    buildApp noLangInput =
      Except.error "Missing configuration for language" :=
  (claim_c9_missing_language noLangInput rfl).1

/-- C10: compare_patterns is an equivalence relation on patterns:
reflexive, symmetric and transitive. -/
theorem claim_c10_equivalence (p q r : RefoPattern) :
    compare_patterns p p = true ∧
    compare_patterns p q = compare_patterns q p ∧
    (compare_patterns p q = true → compare_patterns q r = true →
      compare_patterns p r = true) :=
  ⟨compare_patterns_refl p, compare_patterns_comm p q,
    fun h1 h2 => compare_patterns_trans h1 h2⟩

/-- Witness for C10: the transitivity branch applied at a concrete
pattern, both hypotheses discharged by the reflexivity branch. -/
theorem claim_c10_equivalence_witness :
    compare_patterns (RefoPattern.star .anyTok)
      (RefoPattern.star .anyTok) = true := by
  have h := claim_c10_equivalence (RefoPattern.star .anyTok)
    (RefoPattern.star .anyTok) (RefoPattern.star .anyTok)
  exact h.2.2 h.1 h.1

/-- C3: with a tagger that raises the tagging error on every input,
get_queries yields the empty sequence for every question; as a total
Lean function it propagates no exception — the failure is absorbed
within the call. -/
theorem claim_c3_tagging_failure {ε μ : Type} (app : QuepyApp ε μ)
    (h : ∀ s, app.tagger s = none) (question : String) :
    app.get_queries question = [] := by
  unfold QuepyApp.get_queries QuepyApp.iter_compiled_forms
  rw [h]
  rfl

/-- Witness for C3 at a concrete always-failing tagger. -/
theorem claim_c3_tagging_failure_witness :
    failTagApp.get_queries "who is obama" = [] :=
  claim_c3_tagging_failure failTagApp (fun _ => rfl) "who is obama"

/-- C4 counterexample: the claim fails on the code.  A question made of a
single quote is returned with that quote unescaped (the Python literal in
line 51 denotes a bare quote, so nothing is prepended); and re-sanitizing
a sanitized double quote prepends a second backslash, so sanitization is
not idempotent. -/
theorem claim_c4_counterexample :
    unescapedOccurs squote (question_sanitize (String.mk [squote])) =
      true ∧
    question_sanitize (question_sanitize (String.mk [dquote])) ≠
      question_sanitize (String.mk [dquote]) := by
  constructor
  · decide
  · decide

/-- C4 amended: question_sanitize escapes only double quotes — after
sanitization no double quote is unescaped — while single quotes pass
through untouched; it returns a string unchanged when that string holds
no double quote (and only then is re-application the identity). -/
theorem claim_c4_amended (s : String) :
    unescapedOccurs dquote (question_sanitize s) = false ∧
    (dquote ∉ s.data → question_sanitize s = s) := by
  constructor
  · rw [question_sanitize_eq]
    exact hasUnescapedFrom_replace_dquote s.data none
  · intro h
    rw [question_sanitize_eq, replaceChar_of_not_mem dquote _ s.data h]

/-- Witness for C4 amended at the one-character single-quote question. -/
theorem claim_c4_amended_witness :
    unescapedOccurs dquote (question_sanitize (String.mk [squote])) =
      false ∧
    question_sanitize (String.mk [squote]) = String.mk [squote] := by
  have h := claim_c4_amended (String.mk [squote])
  exact ⟨h.1, h.2 (by decide)⟩

/-- C5 counterexample: get_queries does not sanitize its input.  For an
application whose tagger accepts exactly the raw one-character
double-quote question, get_queries succeeds on that question while the
spec's sanitize-first pipeline (which hands the tagger the escaped text)
yields nothing. -/
theorem claim_c5_counterexample :
    quoteTagApp.get_queries (String.mk [dquote]) ≠
      get_queries_sanitizing quoteTagApp (String.mk [dquote]) := by
  decide

/-- C5 amended: sanitization is not a step of get_queries; it happens
once, inside get_query, before get_queries is invoked.  get_queries
itself encodes and tags the unsanitized question, so it coincides with
the spec's sanitize-first pipeline exactly when encoding ignores the
sanitization (e.g. for quote-free questions). -/
theorem claim_c5_amended {ε μ : Type} (app : QuepyApp ε μ)
    (question : String) :
    app.get_query question =
      (match (get_queries_sanitizing app question).head? with
       | none => (none, none, none)
       | some (t, q, u) => (some t, some q, some u)) ∧
    (app.encode (question_sanitize question) = app.encode question →
      get_queries_sanitizing app question = app.get_queries question) := by
  constructor
  · unfold QuepyApp.get_query get_queries_sanitizing
    cases h : app.get_queries (question_sanitize question) with
    | nil => rfl
    | cons a tl => rfl
  · intro he
    unfold get_queries_sanitizing QuepyApp.get_queries
    rw [he]

/-- Witness for C5 amended: on a quote-free question with identity
encoding the two pipelines agree. -/
theorem claim_c5_amended_witness :
    get_queries_sanitizing quoteTagApp "abc" =
      quoteTagApp.get_queries "abc" := by
  have h := claim_c5_amended quoteTagApp "abc"
  exact h.2 (by decide)

/-- C2: get_query returns exactly the first element of the sequence
produced by the get_queries call it makes (the code hands get_queries
the sanitized question, line 158-159); and when no rule's pattern
matches, get_queries yields the empty sequence and get_query returns
(None, None, None) — as total Lean functions, without raising. -/
theorem claim_c2_first_element {ε μ : Type} (app : QuepyApp ε μ)
    (question : String) :
    app.get_query question =
      (match (app.get_queries (question_sanitize question)).head? with
       | none => (none, none, none)
       | some (t, q, u) => (some t, some q, some u)) ∧
    ((∀ rule ∈ app.rules, ∀ words,
        (rule.getInterpretation words).1 = none) →
      app.get_queries question = [] ∧
      app.get_query question = (none, none, none)) := by
  have hempty : (∀ rule ∈ app.rules, ∀ words,
      (rule.getInterpretation words).1 = none) →
      ∀ q' : String, app.get_queries q' = [] := by
    intro h q'
    have hiter : app.iter_compiled_forms (app.encode q') = [] := by
      unfold QuepyApp.iter_compiled_forms
      cases htag : app.tagger (app.encode q') with
      | none => rfl
      | some words =>
          show (app.rules.filterMap (fun rule =>
            match rule.getInterpretation words with
            | (some expression, userdata) => some (expression, userdata)
            | (none, _) => none)) = []
          rw [List.filterMap_eq_nil_iff]
          intro rule hr
          have hw := h rule hr words
          cases hgi : rule.getInterpretation words with
          | mk o ud =>
              rw [hgi] at hw
              simp at hw
              subst hw
              rfl
    unfold QuepyApp.get_queries
    rw [hiter]
    rfl
  constructor
  · unfold QuepyApp.get_query
    cases h : app.get_queries (question_sanitize question) with
    | nil => rfl
    | cons a tl => rfl
  · intro h
    refine ⟨hempty h question, ?_⟩
    unfold QuepyApp.get_query
    rw [hempty h (question_sanitize question)]

/-- Witness for C2 at an application whose single rule never matches. -/
theorem claim_c2_first_element_witness :
    noMatchApp.get_queries "abc" = [] ∧
    noMatchApp.get_query "abc" = (none, none, none) := by
  have h := claim_c2_first_element noMatchApp "abc"
  refine h.2 ?_
  intro rule hr words
  have hr' : rule = noneRule := List.mem_singleton.mp hr
  rw [hr']
  rfl

/-- C1: for every discovered rule list and tagged token sequence,
get_query returns the (target, query, metadata) produced by the
highest-weight rule whose pattern matches the sequence; among matching
rules of equal weight, the one earliest in discovery order wins.  The
rule `r` sits at an arbitrary position of the discovered list (split
`l1 ++ r :: l2`), every matching rule weighs at most `r`, and every
matching rule discovered before `r` weighs strictly less. -/
theorem claim_c1_weight_order {ε μ : Type} (inp : QuepyAppInput ε μ)
    (app : QuepyApp ε μ) (hb : buildApp inp = Except.ok app)
    (question : String) (words : List Token)
    (htag : inp.tagger (inp.encode (question_sanitize question)) =
      some words)
    (l1 l2 : List (Rule ε μ)) (r : Rule ε μ) (e : ε) (u : μ)
    (hsplit : inp.discovered = l1 ++ r :: l2)
    (hm : r.getInterpretation words = (some e, u))
    (hmax : ∀ s ∈ inp.discovered, ruleMatches s words = true →
      s.weight ≤ r.weight)
    (hfirst : ∀ s ∈ l1, ruleMatches s words = true →
      s.weight < r.weight) :
    app.get_query question =
      (some (app.get_code e app.language).1,
       some (app.get_code e app.language).2, some u) := by
  obtain ⟨hrules, -, htg, henc, -⟩ := buildApp_ok_fields inp app hb
  set f : Rule ε μ → Option (ε × μ) := fun rule =>
    match rule.getInterpretation words with
    | (some expression, userdata) => some (expression, userdata)
    | (none, _) => none with hf
  have hq : app.iter_compiled_forms
      (app.encode (question_sanitize question)) =
      app.rules.filterMap f := by
    unfold QuepyApp.iter_compiled_forms
    rw [henc, htg, htag]
  have hpf : (fun s : Rule ε μ => (f s).isSome) =
      (fun s => ruleMatches s words) := by
    funext s
    cases hgi : s.getInterpretation words with
    | mk o ud => cases o <;> simp [hf, hgi, ruleMatches]
  have hfind : app.rules.find? (fun s => (f s).isSome) = some r := by
    rw [hrules, hsplit, hpf]
    apply find?_insertionSort_argmax
    · simp [ruleMatches, hm]
    · rw [← hsplit]
      exact hmax
    · exact hfirst
  have hhead : (app.rules.filterMap f).head? = some (e, u) := by
    rw [head?_filterMap, hfind]
    simp [hf, hm]
  obtain ⟨p, tl, hft⟩ : ∃ p tl, app.rules.filterMap f = p :: tl := by
    cases hft : app.rules.filterMap f with
    | nil =>
        rw [hft] at hhead
        exact absurd hhead (by simp)
    | cons p tl => exact ⟨p, tl, rfl⟩
  have hp : p = (e, u) := by
    rw [hft] at hhead
    simpa using hhead
  subst hp
  unfold QuepyApp.get_query QuepyApp.get_queries
  rw [hq, hft]
  rfl

/-- Witness for C1: two always-matching rules, the low-weight one
discovered first; get_query returns the high-weight rule's generated
query. -/
theorem claim_c1_weight_order_witness :
    witApp.get_query "who is obama" =
      (some "highExpr-target", some "en", some "highData") := by
  have h := claim_c1_weight_order witInput witApp rfl "who is obama"
    [witTok] rfl [rLow] [] rHigh "highExpr" "highData" rfl rfl
    (by
      intro s hs _
      rcases List.mem_cons.mp hs with rfl | hs'
      · decide
      · rcases List.mem_singleton.mp hs' with rfl
        decide)
    (by
      intro s hs _
      rcases List.mem_singleton.mp hs with rfl
      decide)
  exact h.trans (by decide)

/-! ## Decomposition counting and order -/

theorem unwrapQuestion_of_questionFree {c : RefoPattern}
    (h : questionFree c = true) : unwrapQuestion c = c := by
  cases c <;> simp_all [unwrapQuestion, questionFree]

theorem frag_length_of_questionFree :
    ∀ p : RefoPattern, questionFree p = true →
      (refo_subpatterns p).length + 1 = nodeCount p := by
  intro p
  induction p using refo_subpatterns.induct with
  | case1 n r => intro _; simp [nodeCount]
  | case2 n => intro _; simp [nodeCount]
  | case3 => intro _; simp [nodeCount]
  | case4 c ih =>
      intro h
      rw [questionFree] at h
      rw [refo_subpatterns_star, unwrapQuestion_of_questionFree h] at *
      rw [nodeCount]
      have := ih h
      simp at this ⊢
      omega
  | case5 c ih =>
      intro h
      rw [questionFree] at h
      exact absurd h (by simp)
  | case6 a b iha ihb =>
      intro h
      rw [questionFree] at h
      simp only [Bool.and_eq_true] at h
      obtain ⟨ha, hb⟩ := h
      rw [refo_subpatterns_disjunction, unwrapQuestion_of_questionFree ha,
        unwrapQuestion_of_questionFree hb] at *
      rw [nodeCount]
      have h1 := iha ha
      have h2 := ihb hb
      simp at h1 h2 ⊢
      omega
  | case7 l ih =>
      intro h
      rw [questionFree_concat, List.all_eq_true] at h
      rw [refo_subpatterns_concat, nodeCount_concat, List.length_flatMap]
      have hmap : List.map
          (List.length ∘ fun c =>
            refo_subpatterns (unwrapQuestion c) ++ [unwrapQuestion c]) l =
          List.map nodeCount l := by
        apply List.map_congr_left
        intro c hc
        have hqf : questionFree c = true := h c hc
        have hu : unwrapQuestion c = c :=
          unwrapQuestion_of_questionFree hqf
        have hlen := ih ⟨c, hc⟩ (by rw [hu]; exact hqf)
        rw [hu] at hlen
        simp only [Function.comp, hu, List.length_append]
        simp at hlen ⊢
        omega
      rw [hmap]
      omega

theorem refo_subpatterns_block (p c : RefoPattern)
    (hc : c ∈ patternChildren p) :
    ∃ s t, refo_subpatterns p =
      s ++ (refo_subpatterns (unwrapQuestion c) ++ [unwrapQuestion c])
        ++ t := by
  cases p with
  | predicate n => simp [patternChildren] at hc
  | anyTok => simp [patternChildren] at hc
  | particle n r => simp [patternChildren] at hc
  | star d =>
      rw [show c = d from by simpa [patternChildren] using hc]
      exact ⟨[], [], by simp⟩
  | question d =>
      rw [show c = d from by simpa [patternChildren] using hc]
      exact ⟨[], [], by simp⟩
  | disjunction a b =>
      rcases (by simpa [patternChildren] using hc : c = a ∨ c = b) with
        rfl | rfl
      · exact ⟨[],
          refo_subpatterns (unwrapQuestion b) ++ [unwrapQuestion b],
          by simp⟩
      · exact ⟨refo_subpatterns (unwrapQuestion a) ++ [unwrapQuestion a],
          [], by simp⟩
  | concat l =>
      have hc' : c ∈ l := by simpa [patternChildren] using hc
      obtain ⟨s', t', rfl⟩ := List.append_of_mem hc'
      refine ⟨s'.flatMap (fun d =>
          refo_subpatterns (unwrapQuestion d) ++ [unwrapQuestion d]),
        t'.flatMap (fun d =>
          refo_subpatterns (unwrapQuestion d) ++ [unwrapQuestion d]), ?_⟩
      rw [refo_subpatterns_concat, List.flatMap_append, List.flatMap_cons]
      simp

/-- C6 counterexample: the tree `pLeaves` (a Concatenation of two atomic
predicate leaves) has one composite node in total — the root — hence
zero composite nodes below the root, yet decomposition yields two
fragments: the two leaves.  So the fragment count is not the number of
composite nodes below the root. -/
theorem claim_c6_counterexample :
    (refo_subpatterns pLeaves).length = 2 ∧
    compositeCount pLeaves = 1 ∧
    isCompositeNode pLeaves = true := by
  refine ⟨?_, ?_, rfl⟩
  · simp [pLeaves, unwrapQuestion]
  · simp [pLeaves, compositeCount]

/-- C6 amended: decomposing a Particle or an atomic leaf yields the
empty list; for a Question-free tree the decomposition yields exactly
one fragment per node strictly below the root, counting atomic leaves as
well as composite nodes (`nodeCount p - 1` fragments, where a Particle
counts as a single leaf); and fragments are listed bottom-up: for every
structural child of a node, the child's own fragment list immediately
precedes the (Question-unwrapped) child inside the node's fragment
list. -/
theorem claim_c6_amended :
    (∀ n r, refo_subpatterns (.particle n r) = []) ∧
    (∀ n, refo_subpatterns (.predicate n) = []) ∧
    refo_subpatterns .anyTok = [] ∧
    (∀ p, questionFree p = true →
      (refo_subpatterns p).length + 1 = nodeCount p) ∧
    (∀ p c, c ∈ patternChildren p →
      ∃ s t, refo_subpatterns p =
        s ++ (refo_subpatterns (unwrapQuestion c) ++ [unwrapQuestion c])
          ++ t) :=
  ⟨fun n r => refo_subpatterns_particle n r,
   fun n => refo_subpatterns_predicate n,
   refo_subpatterns_anyTok,
   frag_length_of_questionFree,
   refo_subpatterns_block⟩

/-- Witness for C6 amended at the concrete tree `pNested`:
three fragments for four nodes, and the star child's block sits inside
the root's fragment list. -/
theorem claim_c6_amended_witness :
    (refo_subpatterns pNested).length + 1 = nodeCount pNested ∧
    ∃ s t, refo_subpatterns pNested =
      s ++ (refo_subpatterns (unwrapQuestion (.predicate "person")) ++
        [unwrapQuestion (.predicate "person")]) ++ t := by
  have h := claim_c6_amended
  refine ⟨h.2.2.2.1 pNested ?_, h.2.2.2.2 pNested (.predicate "person") ?_⟩
  · simp [pNested, questionFree]
  · simp [pNested, patternChildren]

/-! ## Dedup evaluation at the concrete fixture -/

theorem raw_fragment_rules_wit :
    raw_fragment_rules witInput.discovered = [wFrag, wFrag] := by
  simp [raw_fragment_rules, witInput, rLow, rHigh, wFrag, unwrapQuestion]

theorem get_fragment_rules_wit :
    get_fragment_rules witInput.discovered = [wFrag] := by
  unfold get_fragment_rules
  rw [raw_fragment_rules_wit, remove_duplicates_eq_rdAux]
  simp [rdAux, find_pattern, compare_patterns_refl]

/-- C7: after the Registry is built, the stored partial-pattern list
(self.partial_rules) holds no two compare_patterns-equal entries; it is
a sublist of the concatenation of all rules' wrapped fragment lists
(order preserved), and each retained entry occupies the position of its
first occurrence there: it appears in the raw concatenation preceded
only by entries not structurally equal to it. -/
theorem claim_c7_fragment_rules_dedup {ε μ : Type}
    (rules : List (Rule ε μ)) :
    (get_fragment_rules rules).Pairwise
      (fun a b => compare_patterns a b = false) ∧
    List.Sublist (get_fragment_rules rules) (raw_fragment_rules rules) ∧
    ∀ y ∈ get_fragment_rules rules,
      ∃ l1 l2, raw_fragment_rules rules = l1 ++ y :: l2 ∧
        ∀ e ∈ l1, compare_patterns y e = false := by
  unfold get_fragment_rules
  rw [remove_duplicates_eq_rdAux]
  refine ⟨?_, rdAux_sublist compare_patterns (raw_fragment_rules rules) [],
    ?_⟩
  · have hp := rdAux_pairwise compare_patterns (raw_fragment_rules rules) []
    exact hp.imp (fun hab => by rwa [compare_patterns_comm])
  · intro y hy
    obtain ⟨l1, l2, heq, hl1, -⟩ :=
      rdAux_first_occ compare_patterns (raw_fragment_rules rules) [] y hy
    exact ⟨l1, l2, heq, hl1⟩

/-- Witness for C7 at the two-rule fixture, whose rules contribute the
same wrapped fragment twice; the stored list keeps its first
occurrence. -/
theorem claim_c7_fragment_rules_dedup_witness :
    ∃ l1 l2, raw_fragment_rules witInput.discovered = l1 ++ wFrag :: l2 ∧
      ∀ e ∈ l1, compare_patterns wFrag e = false := by
  have h := claim_c7_fragment_rules_dedup witInput.discovered
  refine h.2.2 wFrag ?_
  rw [get_fragment_rules_wit]
  exact List.mem_singleton.mpr rfl

/-- C8: remove_duplicates (with its default comparison
compare_patterns) is idempotent — applying it to its own output returns
that output unchanged — and every element of the input is represented by
exactly one compare_patterns-equal entry in the output, so two rules
contributing structurally identical fragments leave a single entry for
that shape. -/
theorem claim_c8_idempotent (l : List RefoPattern) (x : RefoPattern) :
    remove_duplicates (remove_duplicates l compare_patterns)
      compare_patterns = remove_duplicates l compare_patterns ∧
    (x ∈ l →
      (remove_duplicates l compare_patterns).countP
        (fun y => compare_patterns x y) = 1) := by
  constructor
  · rw [remove_duplicates_eq_rdAux l compare_patterns,
      remove_duplicates_eq_rdAux]
    apply rdAux_of_pairwise
    · exact rdAux_pairwise compare_patterns l []
    · intro y _ s hs
      exact absurd hs (List.not_mem_nil s)
  · intro hx
    rw [remove_duplicates_eq_rdAux]
    apply rdAux_countP_one l [] x ⟨x, hx, compare_patterns_refl x⟩
    intro s hs
    exact absurd hs (List.not_mem_nil s)

/-- Witness for C8: the doubled fragment list of the fixture collapses
to one entry, stays fixed under a second deduplication, and counts the
shape exactly once. -/
theorem claim_c8_idempotent_witness :
    remove_duplicates (remove_duplicates [wFrag, wFrag] compare_patterns)
      compare_patterns =
      remove_duplicates [wFrag, wFrag] compare_patterns ∧
    (remove_duplicates [wFrag, wFrag] compare_patterns).countP
      (fun y => compare_patterns wFrag y) = 1 := by
  have h := claim_c8_idempotent [wFrag, wFrag] wFrag
  exact ⟨h.1, h.2 (List.mem_cons_self wFrag [wFrag])⟩
